import Mathlib

/-! Verification of the sound-programming-practice DSP core.

A shallow embedding, in Lean 4, of the signal-generation code in
`src/examples/ch2-sine-wave.rs`, `ch3-melody.rs`, `ch5-biquad-filter.rs`,
`ch6-karplus.rs` and `ch6-polyblep.rs`, together with theorems settling the
specification's claims about it.

Conventions:
* `usize` values are embedded as `ℕ`; a `usize` subtraction that the code
  guards (the branch is only reached when no underflow is possible) is
  embedded as `ℕ` subtraction, which is exact there, while the one
  unguarded subtraction (`total_frames − release_frames` in the envelope
  release tests) is embedded as `usizeSub`, the release-profile
  two's-complement wrap-around (with overflow checks enabled the program
  would panic at that point instead; no claim relies on a wrapped value
  being produced, only on the release test failing);
* `f64` values whose arithmetic is purely field operations are embedded as
  `ℚ` (exact, executable); values flowing through `sin`/`cos`/`powf`/`sqrt`
  are embedded as `ℝ`;
* `Vec::pop` (takes the LAST element) is `vecPop`;
* the dasp `Fixed`/`Bounded` ring buffers are embedded as lists holding
  exactly the live elements, oldest first.
-/

/-! Section ch2-sine-wave.rs: one-shot envelope `Env`. -/

/-- State of the one-shot envelope iterator (`Env` in ch2-sine-wave.rs). -/
structure EnvOne where
  cur_frame : ℕ
  total_frames : ℕ
  attack_frames : ℕ
  release_frames : ℕ
  deriving Repr, DecidableEq

/-- Embeds `Env::new` (ch2): stores the parameters, `cur_frame = 0`, no validation. -/
def EnvOne.new (total_frames attack_frames release_frames : ℕ) : EnvOne :=
  ⟨0, total_frames, attack_frames, release_frames⟩

/-- Rust `usize` subtraction `a - b` as compiled in release profile:
two's-complement wrap-around. For operands below `2^64` this is exactly
`a.wrapping_sub(b)`; when `b ≤ a` it is the exact difference. (With
overflow checks enabled the program panics when `b > a`; either way the
difference `a − b` is not produced when `b > a`.) -/
def usizeSub (a b : ℕ) : ℕ :=
  if b ≤ a then a - b else (a + 2 ^ 64 - b) % 2 ^ 64

/-- Embeds `<Env as Iterator>::next` (ch2-sine-wave.rs lines 34–55): increment
`cur_frame`; `None` past `total_frames`; release test, then attack test,
then sustain. Both `usize` subtractions go through `usizeSub`; the
numerator one is guarded (`cur ≤ total_frames` on that path), the release
test one is not. -/
def EnvOne.next (e : EnvOne) : Option ℚ × EnvOne :=
  let cur := e.cur_frame + 1
  let e' := { e with cur_frame := cur }
  if cur > e.total_frames then
    (none, e')
  else if cur > usizeSub e.total_frames e.release_frames then
    (some (((usizeSub e.total_frames cur : ℕ) : ℚ) / (e.release_frames : ℚ)), e')
  else if cur ≤ e.attack_frames then
    (some ((cur : ℚ) / (e.attack_frames : ℚ)), e')
  else
    (some 1, e')

/-- The envelope iterator after `n` calls, paired with the `n`-th output
(`none` before the first call). -/
def envSeq (total attack release : ℕ) : ℕ → Option ℚ × EnvOne
  | 0 => (none, EnvOne.new total attack release)
  | n + 1 => (envSeq total attack release n).2.next

/-- The value produced by the one-shot envelope at 1-indexed frame `n`. -/
def envAt (total attack release n : ℕ) : Option ℚ :=
  (envSeq total attack release n).1

theorem envSeq_state (total attack release n : ℕ) :
    (envSeq total attack release n).2 = ⟨n, total, attack, release⟩ := by
  induction n with
  | zero => rfl
  | succ n ih =>
    simp only [envSeq, ih, EnvOne.next]
    split
    · rfl
    · split
      · rfl
      · split <;> rfl

theorem envAt_succ (total attack release n : ℕ) :
    envAt total attack release (n + 1) =
      (EnvOne.next ⟨n, total, attack, release⟩).1 := by
  simp only [envAt, envSeq, envSeq_state]

/-- Closed form for the one-shot envelope at frame `n ≥ 1` when
`release_frames ≤ total_frames` (so the unguarded `usize` subtraction does
not underflow), with the branch conditions and the release numerator
written in exact integer arithmetic. -/
theorem envAt_eq (total attack release n : ℕ) (hn : 1 ≤ n)
    (hrel : release ≤ total) :
    envAt total attack release n =
      if (total : ℤ) < n then none
      else if (total : ℤ) - release < n then
        some ((((total : ℤ) - n : ℤ) : ℚ) / (release : ℚ))
      else if n ≤ attack then
        some ((n : ℚ) / (attack : ℚ))
      else some 1 := by
  have hsub : usizeSub total release = total - release := if_pos hrel
  cases n with
  | zero => omega
  | succ m =>
    rw [envAt_succ]
    simp only [EnvOne.next, hsub]
    split_ifs with h1 h2 h3 h4 h5 h6 h7 <;>
      first
        | rfl
        | (exfalso; omega)
        | (rw [usizeSub, if_pos (by omega : m + 1 ≤ total)]
           congr 1
           rw [Nat.cast_sub (by omega : m + 1 ≤ total)]
           push_cast
           ring)

/-- C9 counterexample: constructing the ch2 envelope with
`attack_frames = 0` and `release_frames = 0` does not fail: `Env::new`
returns a normal state and the iterator produces a sample at frame 1. -/
theorem env_zero_params_produces_samples :
    EnvOne.new 10 0 0 = ⟨0, 10, 0, 0⟩ ∧ envAt 10 0 0 1 = some 1 := by
  constructor
  · rfl
  · decide

/-- C9 (amended): `Env::new` performs no validation, so constructing with
`attack_frames = 0` or `release_frames = 0` succeeds; playback still
produces a value at every frame `1 ≤ n ≤ total_frames` (the division-prone
release/attack branches are unreachable for a zero parameter, and with both
zero every such frame yields the sustain value `1`). -/
theorem env_zero_params_no_fail_fast (total attack release n : ℕ)
    (hn : 1 ≤ n) (hnt : n ≤ total) :
    (envAt total attack 0 n).isSome = true ∧
    (envAt total 0 release n).isSome = true ∧
    envAt total 0 0 n = some 1 := by
  have hs0 : ∀ a : ℕ, usizeSub a 0 = a := fun a => by
    rw [usizeSub, if_pos (Nat.zero_le a), Nat.sub_zero]
  cases n with
  | zero => omega
  | succ m =>
    refine ⟨?_, ?_, ?_⟩ <;>
      (rw [envAt_succ]
       simp only [EnvOne.next, hs0]
       split_ifs <;> first | rfl | omega)

/-- C9 witness. -/
theorem env_zero_params_no_fail_fast_witness :
    (envAt 10 7 0 3).isSome = true ∧ (envAt 10 0 5 3).isSome = true ∧
    envAt 10 0 0 3 = some 1 :=
  env_zero_params_no_fail_fast 10 7 5 3 (by decide) (by decide)

/-- C1 counterexample: the claim also covers `release_frames > total_frames`
(its tie-break clause allows `attack + release > total`), but there the
`usize` subtraction `total_frames − release_frames` wraps around (or, with
overflow checks, panics), so the release test fails: at
`total = 10, attack = 1, release = 11`, frame 1 yields the attack value `1`
and not the claimed release value `(10 − 1)/11 = 9/11`. -/
theorem one_shot_envelope_release_overflow :
    envAt 10 1 11 1 = some 1 ∧ envAt 10 1 11 1 ≠ some (9 / 11) := by
  have h0 : envAt 10 1 11 1 = some 1 := by
    have h1 := envAt_succ 10 1 11 0
    norm_num at h1
    rw [h1]
    simp only [EnvOne.next, usizeSub]
    norm_num
  refine ⟨h0, ?_⟩
  rw [h0]
  intro hc
  have hq : (1 : ℚ) = 9 / 11 := Option.some.inj hc
  norm_num at hq

/-- C1 (amended): the one-shot envelope, now restricted to
`release_frames ≤ total_frames` (as in every actual construction), where
the `usize` subtraction in the release test cannot underflow. For positive
`total_frames`, `attack_frames`, `release_frames` with
`release_frames ≤ total_frames`, the value at 1-indexed frame `n` is: none
once `n > total_frames`; else `(total_frames − n)/release_frames` when
`n > total_frames − release_frames` (release tested before attack); else
`n/attack_frames` when `n ≤ attack_frames`; else `1`. With
`attack = release = 1000`, `total = 48000`: frame 1 ↦ 0.001, frame 1000 ↦ 1,
frame 47001 ↦ 0.999, frame 48000 ↦ 0, and no value beyond frame 48000. -/
theorem one_shot_envelope_correct :
    (∀ total attack release n : ℕ,
      0 < total → 0 < attack → 0 < release → release ≤ total → 1 ≤ n →
      envAt total attack release n =
        if (total : ℤ) < n then none
        else if (total : ℤ) - release < n then
          some ((((total : ℤ) - n : ℤ) : ℚ) / (release : ℚ))
        else if n ≤ attack then
          some ((n : ℚ) / (attack : ℚ))
        else some 1) ∧
    envAt 48000 1000 1000 1 = some 0.001 ∧
    envAt 48000 1000 1000 1000 = some 1 ∧
    envAt 48000 1000 1000 47001 = some 0.999 ∧
    envAt 48000 1000 1000 48000 = some 0 ∧
    (∀ m : ℕ, 48000 < m → envAt 48000 1000 1000 m = none) := by
  have key : ∀ total attack release n : ℕ, 1 ≤ n → release ≤ total →
      envAt total attack release n =
        if (total : ℤ) < n then none
        else if (total : ℤ) - release < n then
          some ((((total : ℤ) - n : ℤ) : ℚ) / (release : ℚ))
        else if n ≤ attack then
          some ((n : ℚ) / (attack : ℚ))
        else some 1 := fun total attack release n hn hrel =>
    envAt_eq total attack release n hn hrel
  refine ⟨fun total attack release n _ _ _ hrel hn =>
      key total attack release n hn hrel,
    ?_, ?_, ?_, ?_, ?_⟩
  · rw [key _ _ _ _ (by norm_num) (by norm_num)]; norm_num
  · rw [key _ _ _ _ (by norm_num) (by norm_num)]; norm_num
  · rw [key _ _ _ _ (by norm_num) (by norm_num)]; norm_num
  · rw [key _ _ _ _ (by norm_num) (by norm_num)]; norm_num
  · intro m hm
    rw [key _ _ _ _ (by omega) (by norm_num)]
    rw [if_pos (by exact_mod_cast hm)]

/-- C1 witness. -/
theorem one_shot_envelope_correct_witness :
    envAt 48000 1000 1000 24000 = some 1 ∧
    envAt 48000 1000 1000 50000 = none := by
  constructor
  · rw [one_shot_envelope_correct.1 48000 1000 1000 24000 (by norm_num)
      (by norm_num) (by norm_num) (by norm_num) (by norm_num)]
    norm_num
  · exact one_shot_envelope_correct.2.2.2.2.2 50000 (by norm_num)

/-! Section ch3-melody.rs: `Track` and the step-sequenced `Env`. -/

/-- Rust `Vec::pop`: removes and returns the LAST element of the vector. -/
def vecPop {α : Type} (l : List α) : Option α × List α :=
  (l.getLast?, l.dropLast)

/-- State of `Track` (ch3-melody.rs lines 78–94). -/
structure Track where
  seq : List ℚ
  step_length : ℕ
  cur_frame : ℕ
  note : ℚ
  deriving Repr, DecidableEq

/-- Embeds `Track::new`: stores the sequence, `cur_frame = 0`, `note = 0.0`. -/
def Track.new (seq : List ℚ) (step_length : ℕ) : Track :=
  ⟨seq, step_length, 0, 0⟩

/-- Embeds `<Track as Signal>::next` (ch3-melody.rs lines 99–110): increment
`cur_frame`; when it exceeds `step_length`, wrap it and pop the next note
from the tail of `seq` (default `0.0` when exhausted); output `note`. -/
def Track.next (t : Track) : ℚ × Track :=
  let cur := t.cur_frame + 1
  if cur > t.step_length then
    let (v, seq') := vecPop t.seq
    let note := v.getD 0
    (note, ⟨seq', t.step_length, cur - t.step_length, note⟩)
  else
    (t.note, { t with cur_frame := cur })

/-- State of the step-sequenced `Env` (ch3-melody.rs lines 20–44);
`Env::new` in ch3 does not pre-pop, so `note_on` starts `false`. -/
structure EnvStep where
  seq : List Bool
  cur_frame : ℕ
  note_on : Bool
  step_length : ℕ
  attack_frames : ℕ
  release_frames : ℕ
  deriving Repr, DecidableEq

/-- Embeds `Env::new` (ch3-melody.rs lines 30–44). -/
def EnvStep.new (seq : List Bool) (step_length attack_frames release_frames : ℕ) :
    EnvStep :=
  ⟨seq, 0, false, step_length, attack_frames, release_frames⟩

/-- Embeds `<Env as Signal>::next` (ch3-melody.rs lines 50–75): advance the step
sequencer exactly like `Track`, then shape with the attack/sustain/release
contour relative to `step_length`. The `usize` subtractions in the shaping
branches go through `usizeSub` (the release-test one is unguarded, exactly
as in the one-shot envelope); the pop-branch subtraction
`cur - step_length` is guarded by `cur > step_length`, where `ℕ`
subtraction is exact. -/
def EnvStep.next (e : EnvStep) : ℚ × EnvStep :=
  let cur := e.cur_frame + 1
  let e' : EnvStep :=
    if cur > e.step_length then
      ⟨(vecPop e.seq).2, cur - e.step_length, ((vecPop e.seq).1).getD false,
        e.step_length, e.attack_frames, e.release_frames⟩
    else
      { e with cur_frame := cur }
  if !e'.note_on then
    (0, e')
  else if e'.cur_frame > usizeSub e.step_length e.release_frames then
    (((usizeSub e.step_length e'.cur_frame : ℕ) : ℚ) / (e.release_frames : ℚ), e')
  else if e'.cur_frame ≤ e.attack_frames then
    ((e'.cur_frame : ℚ) / (e.attack_frames : ℚ), e')
  else
    (1, e')

/-- The `Track` state after `n` calls, paired with the `n`-th output. -/
def trackSeq (seq : List ℚ) (L : ℕ) : ℕ → ℚ × Track
  | 0 => (0, Track.new seq L)
  | n + 1 => (trackSeq seq L n).2.next

/-- The step-sequenced `Env` state after `n` calls, with the `n`-th output. -/
def envStepSeq (seq : List Bool) (L attack release : ℕ) : ℕ → ℚ × EnvStep
  | 0 => (0, EnvStep.new seq L attack release)
  | n + 1 => (envStepSeq seq L attack release n).2.next

/-- The step value in effect after `p` pops from the tail of `seq`
(`d` both before the first pop and after exhaustion). -/
def noteAfter {α : Type} (seq : List α) (d : α) (p : ℕ) : α :=
  if p = 0 then d else (seq.reverse[p - 1]?).getD d

theorem dropLast_iterate_getLast? {α : Type} (j : ℕ) (l : List α) :
    (List.dropLast^[j] l).getLast? = l.reverse[j]? := by
  induction j generalizing l with
  | zero =>
    rw [Function.iterate_zero_apply, List.getLast?_eq_head?_reverse,
      List.head?_eq_getElem?]
  | succ j ih =>
    rw [Function.iterate_succ_apply, ih, ← List.tail_reverse_eq_reverse_dropLast,
      List.getElem?_tail]

theorem succ_mod_div_of_mod_eq (m L : ℕ) (hL : 1 ≤ L) (h : m % L = L - 1) :
    (m + 1) % L = 0 ∧ (m + 1) / L = m / L + 1 := by
  have hm : m + 1 = L * (m / L + 1) := by
    have := Nat.div_add_mod m L
    rw [Nat.mul_succ]
    omega
  rw [hm]
  exact ⟨Nat.mul_mod_right L _, Nat.mul_div_cancel_left _ (by omega)⟩

theorem succ_mod_div_of_mod_lt (m L : ℕ) (hL : 1 ≤ L) (h : m % L + 1 < L) :
    (m + 1) % L = m % L + 1 ∧ (m + 1) / L = m / L := by
  have hm : m + 1 = (m % L + 1) + L * (m / L) := by
    have := Nat.div_add_mod m L
    omega
  constructor
  · rw [hm, Nat.add_mul_mod_self_left, Nat.mod_eq_of_lt h]
  · rw [hm, Nat.add_mul_div_left _ _ (by omega : 0 < L),
      Nat.div_eq_of_lt h, Nat.zero_add]

/-- The `Track` state after `n ≥ 1` calls: `(n−1)/L` values have been popped
from the tail of `seq`, `cur_frame = (n−1) % L + 1`, and the `n`-th output
is the note after those pops. -/
theorem trackSeq_closed (seq : List ℚ) (L : ℕ) (hL : 1 ≤ L) (n : ℕ) (hn : 1 ≤ n) :
    (trackSeq seq L n).2 =
      ⟨List.dropLast^[(n - 1) / L] seq, L, (n - 1) % L + 1,
        noteAfter seq 0 ((n - 1) / L)⟩ ∧
    (trackSeq seq L n).1 = noteAfter seq 0 ((n - 1) / L) := by
  induction n with
  | zero => omega
  | succ m ih =>
    cases Nat.eq_zero_or_pos m with
    | inl hm =>
      subst hm
      simp only [trackSeq, Track.new, Track.next]
      rw [if_neg (by omega)]
      simp [noteAfter, Nat.zero_div, Nat.zero_mod]
    | inr hm =>
      obtain ⟨hstate, -⟩ := ih hm
      have hsub : m + 1 - 1 = (m - 1) + 1 := by omega
      simp only [trackSeq, hstate, Track.next, vecPop, hsub]
      by_cases hpop : (m - 1) % L + 1 + 1 > L
      · have h0 : 0 < L := by omega
        have hmod : (m - 1) % L = L - 1 := by
          have := Nat.mod_lt (m - 1) h0
          omega
        obtain ⟨h1, h2⟩ := succ_mod_div_of_mod_eq (m - 1) L hL hmod
        have hcur : (m - 1) % L + 1 + 1 - L = 0 + 1 := by omega
        have hnote : (List.dropLast^[(m - 1) / L] seq).getLast?.getD 0 =
            noteAfter seq 0 ((m - 1) / L + 1) := by
          rw [noteAfter, if_neg (Nat.succ_ne_zero _), dropLast_iterate_getLast?]
          simp
        rw [if_pos hpop, h1, h2, hcur, hnote, Function.iterate_succ_apply']
        exact ⟨rfl, rfl⟩
      · have hlt : (m - 1) % L + 1 < L := by omega
        obtain ⟨h1, h2⟩ := succ_mod_div_of_mod_lt (m - 1) L hL hlt
        rw [if_neg hpop, h1, h2]
        exact ⟨rfl, rfl⟩

/-- Step-sequenced `Env` state after `n ≥ 1` calls: same stepping rule as
`Track`, so `note_on` is the boolean popped from the tail `(n−1)/L` pops in. -/
theorem envStepSeq_closed (seq : List Bool) (L attack release : ℕ)
    (hL : 1 ≤ L) (n : ℕ) (hn : 1 ≤ n) :
    (envStepSeq seq L attack release n).2 =
      ⟨List.dropLast^[(n - 1) / L] seq, (n - 1) % L + 1,
        noteAfter seq false ((n - 1) / L), L, attack, release⟩ := by
  induction n with
  | zero => omega
  | succ m ih =>
    have hnext : ∀ e : EnvStep, (EnvStep.next e).2 =
        if e.cur_frame + 1 > e.step_length then
          ⟨(vecPop e.seq).2, e.cur_frame + 1 - e.step_length,
            ((vecPop e.seq).1).getD false, e.step_length, e.attack_frames,
            e.release_frames⟩
        else { e with cur_frame := e.cur_frame + 1 } := by
      intro e
      simp only [EnvStep.next]
      split_ifs <;> rfl
    cases Nat.eq_zero_or_pos m with
    | inl hm =>
      subst hm
      simp only [envStepSeq, EnvStep.new, hnext]
      rw [if_neg (by simp; omega)]
      simp [noteAfter, Nat.zero_div, Nat.zero_mod]
    | inr hm =>
      have hstate := ih hm
      have hsub : m + 1 - 1 = (m - 1) + 1 := by omega
      simp only [envStepSeq, hstate, hnext, vecPop, hsub]
      by_cases hpop : (m - 1) % L + 1 + 1 > L
      · have h0 : 0 < L := by omega
        have hmod : (m - 1) % L = L - 1 := by
          have := Nat.mod_lt (m - 1) h0
          omega
        obtain ⟨h1, h2⟩ := succ_mod_div_of_mod_eq (m - 1) L hL hmod
        have hcur : (m - 1) % L + 1 + 1 - L = 0 + 1 := by omega
        have hnote : ((List.dropLast^[(m - 1) / L] seq).getLast?).getD false =
            noteAfter seq false ((m - 1) / L + 1) := by
          rw [noteAfter, if_neg (Nat.succ_ne_zero _), dropLast_iterate_getLast?]
          simp
        rw [if_pos hpop, h1, h2, hcur, hnote, Function.iterate_succ_apply']
      · have hlt : (m - 1) % L + 1 < L := by omega
        obtain ⟨h1, h2⟩ := succ_mod_div_of_mod_lt (m - 1) L hL hlt
        rw [if_neg hpop, h1, h2]

/-- C8: for both step-sequenced signals, the value in effect during step
`k + 1` (frames `k·L < n ≤ (k+1)·L`, `k ≥ 1`) is the `k`-th value popped
from the TAIL of the authored sequence — the table plays in reverse — and
once the sequence is exhausted (`k` beyond its length) the default
(`0` Hz for `Track`, `false` for the envelope) is used forever after. -/
theorem step_sequence_tail_consumption (seq : List ℚ) (bseq : List Bool)
    (L attack release k n : ℕ) (hL : 1 ≤ L) (hk : 1 ≤ k)
    (h1 : k * L < n) (h2 : n ≤ (k + 1) * L) :
    (trackSeq seq L n).1 = (seq.reverse[k - 1]?).getD 0 ∧
    (envStepSeq bseq L attack release n).2.note_on =
      (bseq.reverse[k - 1]?).getD false ∧
    (seq.length < k → (trackSeq seq L n).1 = 0) ∧
    (bseq.length < k →
      (envStepSeq bseq L attack release n).2.note_on = false) := by
  have hn : 1 ≤ n := lt_of_le_of_lt (Nat.zero_le _) h1
  have hdiv : (n - 1) / L = k := by
    apply Nat.div_eq_of_lt_le
    · calc k * L ≤ n - 1 := by omega
      _ = n - 1 := rfl
    · calc n - 1 < n := by omega
      _ ≤ (k + 1) * L := h2
  obtain ⟨-, hout⟩ := trackSeq_closed seq L hL n hn
  have henv := envStepSeq_closed bseq L attack release hL n hn
  have htr : (trackSeq seq L n).1 = (seq.reverse[k - 1]?).getD 0 := by
    rw [hout, hdiv, noteAfter, if_neg (by omega)]
  have hen : (envStepSeq bseq L attack release n).2.note_on =
      (bseq.reverse[k - 1]?).getD false := by
    rw [henv, hdiv]
    rw [noteAfter, if_neg (by omega)]
  refine ⟨htr, hen, ?_, ?_⟩
  · intro hlen
    rw [htr, List.getElem?_eq_none (by simpa using (by omega : seq.length ≤ k - 1))]
    rfl
  · intro hlen
    rw [hen, List.getElem?_eq_none (by simpa using (by omega : bseq.length ≤ k - 1))]
    rfl

/-- C8 witness. -/
theorem step_sequence_tail_consumption_witness :
    (trackSeq [2, 3] 2 3).1 = 3 ∧ (trackSeq [2, 3] 2 11).1 = 0 := by
  constructor
  · have h := (step_sequence_tail_consumption [2, 3] [] 2 0 0 1 3 (by norm_num)
      (by norm_num) (by norm_num) (by norm_num)).1
    rw [h]; rfl
  · exact (step_sequence_tail_consumption [2, 3] [] 2 0 0 5 11 (by norm_num)
      (by norm_num) (by norm_num) (by norm_num)).2.2.1 (by norm_num)

/-! Section ch5-biquad-filter.rs: biquad low-pass filter `Lpf`.

The filter proper consumes one input sample per call (the wrapped source
signal supplies `orig`); we embed the filtering step as a function of the
input sample. Representation B (the one in the source) keeps the last two
inputs and outputs in two fixed two-slot ring buffers, oldest first. -/

/-- State of `Lpf` (ch5-biquad-filter.rs lines 75–98): `before.1` is the
input of 2 steps ago, `before.2` the input of 1 step ago; likewise `after`
for outputs. -/
structure Lpf where
  fs : ℝ
  fc : ℝ
  q : ℝ
  before : ℝ × ℝ
  after : ℝ × ℝ

/-- Embeds `Lpf::new`: both ring buffers initialized to zeros. -/
def Lpf.new (fs fc q : ℝ) : Lpf :=
  ⟨fs, fc, q, (0, 0), (0, 0)⟩

/-- Embeds `<Lpf as Signal>::next` (ch5-biquad-filter.rs lines 104–129): recompute
`ω₀` and `α` each call, form the output, divide by `1 + α`, then push the
input and output into the ring buffers. -/
noncomputable def Lpf.next (s : Lpf) (orig : ℝ) : ℝ × Lpf :=
  let omega0 := 2 * Real.pi * s.fc / s.fs
  let alpha := Real.sin omega0 / 2 / s.q
  let out0 := (1 - Real.cos omega0) / 2 * orig
    + (1 - Real.cos omega0) * s.before.2
    + (1 - Real.cos omega0) / 2 * s.before.1
    - (-2 * Real.cos omega0) * s.after.2
    - (1 - alpha) * s.after.1
  let out := out0 / (1 + alpha)
  (out, { s with before := (s.before.2, orig), after := (s.after.2, out) })

/-- C2: one `Lpf::next` call. With `ω₀ = 2π·fc/fs` and `α = sin ω₀/(2q)`
recomputed freshly, the output is
`[(1−cos ω₀)/2·x0 + (1−cos ω₀)·x1 + (1−cos ω₀)/2·x2 + 2cos ω₀·y1 − (1−α)·y2]/(1+α)`,
and afterwards the buffers hold `(x1, x0)` as the last two inputs and
`(y1, out)` as the last two outputs. -/
theorem lpf_next_correct (fs fc q x0 x1 x2 y1 y2 : ℝ) :
    (Lpf.next ⟨fs, fc, q, (x2, x1), (y2, y1)⟩ x0).1 =
      ((1 - Real.cos (2 * Real.pi * fc / fs)) / 2 * x0
        + (1 - Real.cos (2 * Real.pi * fc / fs)) * x1
        + (1 - Real.cos (2 * Real.pi * fc / fs)) / 2 * x2
        + 2 * Real.cos (2 * Real.pi * fc / fs) * y1
        - (1 - Real.sin (2 * Real.pi * fc / fs) / (2 * q)) * y2)
      / (1 + Real.sin (2 * Real.pi * fc / fs) / (2 * q)) ∧
    (Lpf.next ⟨fs, fc, q, (x2, x1), (y2, y1)⟩ x0).2.before = (x1, x0) ∧
    (Lpf.next ⟨fs, fc, q, (x2, x1), (y2, y1)⟩ x0).2.after =
      (y1, (Lpf.next ⟨fs, fc, q, (x2, x1), (y2, y1)⟩ x0).1) := by
  refine ⟨?_, rfl, rfl⟩
  show ((1 - Real.cos (2 * Real.pi * fc / fs)) / 2 * x0
      + (1 - Real.cos (2 * Real.pi * fc / fs)) * x1
      + (1 - Real.cos (2 * Real.pi * fc / fs)) / 2 * x2
      - (-2 * Real.cos (2 * Real.pi * fc / fs)) * y1
      - (1 - Real.sin (2 * Real.pi * fc / fs) / 2 / q) * y2)
      / (1 + Real.sin (2 * Real.pi * fc / fs) / 2 / q) = _
  rw [div_div (Real.sin (2 * Real.pi * fc / fs)) 2 q]
  congr 1
  ring

/-- Modelled from the spec: representation A of the biquad low-pass filter
is not present under `src/` (only representation B is); per the spec it
"stores x0..x2, y0..y2 explicitly and shifts them each call" while
implementing the same recurrence with freshly computed `ω₀`, `α`. -/
structure LpfA where
  fs : ℝ
  fc : ℝ
  q : ℝ
  x1 : ℝ
  x2 : ℝ
  y1 : ℝ
  y2 : ℝ

/-- Modelled from the spec: representation A starts from zeroed registers. -/
def LpfA.new (fs fc q : ℝ) : LpfA :=
  ⟨fs, fc, q, 0, 0, 0, 0⟩

/-- Modelled from the spec: representation A computes the recurrence on the
explicit registers, then shifts `x2 ← x1 ← x0` and `y2 ← y1 ← out`. -/
noncomputable def LpfA.next (s : LpfA) (x0 : ℝ) : ℝ × LpfA :=
  let omega0 := 2 * Real.pi * s.fc / s.fs
  let alpha := Real.sin omega0 / (2 * s.q)
  let out := ((1 - Real.cos omega0) / 2 * x0
    + (1 - Real.cos omega0) * s.x1
    + (1 - Real.cos omega0) / 2 * s.x2
    + 2 * Real.cos omega0 * s.y1
    - (1 - alpha) * s.y2) / (1 + alpha)
  (out, ⟨s.fs, s.fc, s.q, x0, s.x1, out, s.y1⟩)

/-- Output sequence of representation A over an input list. -/
noncomputable def LpfA.run (s : LpfA) : List ℝ → List ℝ
  | [] => []
  | x :: xs => (s.next x).1 :: (s.next x).2.run xs

/-- Output sequence of representation B (the source's `Lpf`). -/
noncomputable def Lpf.run (s : Lpf) : List ℝ → List ℝ
  | [] => []
  | x :: xs => (s.next x).1 :: (s.next x).2.run xs

/-- The state correspondence between the two representations. -/
def LpfRel (a : LpfA) (b : Lpf) : Prop :=
  a.fs = b.fs ∧ a.fc = b.fc ∧ a.q = b.q ∧
  a.x1 = b.before.2 ∧ a.x2 = b.before.1 ∧
  a.y1 = b.after.2 ∧ a.y2 = b.after.1

theorem lpfRel_next {a : LpfA} {b : Lpf} (h : LpfRel a b) (x : ℝ) :
    (a.next x).1 = (b.next x).1 ∧ LpfRel (a.next x).2 (b.next x).2 := by
  obtain ⟨hfs, hfc, hq, hx1, hx2, hy1, hy2⟩ := h
  have hout : (a.next x).1 = (b.next x).1 := by
    show ((1 - Real.cos (2 * Real.pi * a.fc / a.fs)) / 2 * x
        + (1 - Real.cos (2 * Real.pi * a.fc / a.fs)) * a.x1
        + (1 - Real.cos (2 * Real.pi * a.fc / a.fs)) / 2 * a.x2
        + 2 * Real.cos (2 * Real.pi * a.fc / a.fs) * a.y1
        - (1 - Real.sin (2 * Real.pi * a.fc / a.fs) / (2 * a.q)) * a.y2)
        / (1 + Real.sin (2 * Real.pi * a.fc / a.fs) / (2 * a.q)) =
      ((1 - Real.cos (2 * Real.pi * b.fc / b.fs)) / 2 * x
        + (1 - Real.cos (2 * Real.pi * b.fc / b.fs)) * b.before.2
        + (1 - Real.cos (2 * Real.pi * b.fc / b.fs)) / 2 * b.before.1
        - (-2 * Real.cos (2 * Real.pi * b.fc / b.fs)) * b.after.2
        - (1 - Real.sin (2 * Real.pi * b.fc / b.fs) / 2 / b.q) * b.after.1)
        / (1 + Real.sin (2 * Real.pi * b.fc / b.fs) / 2 / b.q)
    rw [hfs, hfc, hq, hx1, hx2, hy1, hy2,
      div_div (Real.sin (2 * Real.pi * b.fc / b.fs)) 2 b.q]
    congr 1
    ring
  refine ⟨hout, hfs, hfc, hq, rfl, hx1, hout, hy1⟩

theorem lpfRel_run {a : LpfA} {b : Lpf} (h : LpfRel a b) (xs : List ℝ) :
    a.run xs = b.run xs := by
  induction xs generalizing a b with
  | nil => rfl
  | cons x xs ih =>
    obtain ⟨h1, h2⟩ := lpfRel_next h x
    simp only [LpfA.run, Lpf.run, h1, ih h2]

/-- C5: for every parameter triple and input sequence, representation A
(explicit shift registers, modelled from the spec) and representation B
(the source's fixed ring buffers) produce sample-by-sample outputs within
the floating-point tolerance `1e-9` (in fact they are exactly equal). -/
theorem biquad_representations_equivalent (fs fc q : ℝ) (xs : List ℝ) :
    List.Forall₂ (fun u v : ℝ => |u - v| ≤ 1e-9)
      ((LpfA.new fs fc q).run xs) ((Lpf.new fs fc q).run xs) := by
  have hrel : LpfRel (LpfA.new fs fc q) (Lpf.new fs fc q) :=
    ⟨rfl, rfl, rfl, rfl, rfl, rfl, rfl⟩
  rw [lpfRel_run hrel]
  have : ∀ l : List ℝ, List.Forall₂ (fun u v : ℝ => |u - v| ≤ 1e-9) l l := by
    intro l
    induction l with
    | nil => exact List.Forall₂.nil
    | cons y ys ih =>
      exact List.Forall₂.cons (by simp; norm_num) ih
  exact this _

/-! Section ch6-karplus.rs: `KarplusStrong`.

The dasp `Bounded` ring buffer (backing array `[f64; 1024]`) is embedded as
the list of its live elements, oldest first; `pop` takes the front, `push`
appends at the back, overwriting the oldest element once the capacity 1024
is reached. The noise source is embedded as an arbitrary sample stream
`noise : ℕ → ℝ` read at a cursor `noise_idx`. -/

/-- Rust `f64 as usize`: truncation toward zero, saturating at `0` for
negative values (for inputs in range and not NaN). -/
noncomputable def f64toUsize (x : ℝ) : ℕ := ⌊x⌋.toNat

/-- Rust `f64::trunc`: rounds toward zero. -/
noncomputable def f64trunc (x : ℝ) : ℝ := if 0 ≤ x then (⌊x⌋ : ℝ) else (⌈x⌉ : ℝ)

/-- Rust `f64::fract`: `self - self.trunc()`. -/
noncomputable def f64fract (x : ℝ) : ℝ := x - f64trunc x

/-- Rust `f64::clamp(lo, hi)` (for `lo ≤ hi`, no NaN). -/
noncomputable def clampR (x lo hi : ℝ) : ℝ := min (max x lo) hi

/-- Embeds `dasp::ring_buffer::Bounded::pop` on the live-element list. -/
def boundedPop (l : List ℝ) : Option ℝ × List ℝ :=
  (l.head?, l.tail)

/-- Embeds `dasp::ring_buffer::Bounded::push` with fixed capacity 1024. -/
def boundedPush (l : List ℝ) (x : ℝ) : List ℝ :=
  if l.length < 1024 then l ++ [x] else l.tail ++ [x]

/-- State of `KarplusStrong` (ch6-karplus.rs lines 18–29). -/
structure KarplusStrong where
  cur_frame : ℕ
  noise : ℕ → ℝ
  noise_idx : ℕ
  fs : ℝ
  g : ℝ
  c : ℝ
  d : ℝ
  delay_line_length : ℕ
  delay_line : List ℝ
  last_delayed_sample : ℝ
  last_all_passed_feedback : ℝ

/-- Embeds `KarplusStrong::new` (ch6-karplus.rs lines 32–62): derive the loop gain
`c`, the delay, the delay-line length, the fractional remainder `e` and the
all-pass coefficient `g`; fill the delay line with zeros. -/
noncomputable def KarplusStrong.new (fs f0 d decay : ℝ) (noise : ℕ → ℝ) :
    KarplusStrong :=
  let num := (10 : ℝ) ^ (-3 / f0 / decay)
  let den := Real.sqrt ((1 - d) * (1 - d)
    + 2 * d * (1 - d) * Real.cos (2 * Real.pi * f0 / fs))
  let c := clampR (num / den) 0 1
  let delay := fs / f0 - d
  let delay_line_length := f64toUsize delay + 1
  let e := f64fract delay
  let g := (1 - e) / (1 + e)
  { cur_frame := 0
    noise := noise
    noise_idx := 0
    fs := fs
    g := g
    c := c
    d := d
    delay_line_length := delay_line_length
    delay_line := List.replicate delay_line_length 0
    last_delayed_sample := 0
    last_all_passed_feedback := 0 }

/-- Embeds `KarplusStrong::new` including the assertion inside
`Bounded::from_raw_parts` (dasp panics when the requested logical length
exceeds the backing array's length 1024): `none` models the panic. -/
noncomputable def KarplusStrong.new? (fs f0 d decay : ℝ) (noise : ℕ → ℝ) :
    Option KarplusStrong :=
  if f64toUsize (fs / f0 - d) + 1 ≤ 1024 then
    some (KarplusStrong.new fs f0 d decay noise)
  else
    none

/-- Embeds `<KarplusStrong as Signal>::next` (ch6-karplus.rs lines 69–94). -/
noncomputable def KarplusStrong.next (s : KarplusStrong) : ℝ × KarplusStrong :=
  let cur_frame := s.cur_frame + 1
  let cur_delayed_sample := ((boundedPop s.delay_line).1).getD 0
  let rest := (boundedPop s.delay_line).2
  let all_passed_feedback := -s.g * s.last_all_passed_feedback
    + s.g * cur_delayed_sample + s.last_delayed_sample
  let trigger := cur_frame % f64toUsize s.fs < s.delay_line_length
  let orig_noise := if trigger then s.noise s.noise_idx else 0
  let noise_idx := if trigger then s.noise_idx + 1 else s.noise_idx
  let out := orig_noise
    + s.c * ((1 - s.d) * all_passed_feedback + s.d * s.last_all_passed_feedback)
  (out,
    { s with
      cur_frame := cur_frame
      noise_idx := noise_idx
      delay_line := boundedPush rest out
      last_all_passed_feedback := all_passed_feedback
      last_delayed_sample := cur_delayed_sample })

/-- C3: for a construction input with `fs/f0 − d ≥ 0` (as in every valid
use), the derived constants are exactly: delay-line length
`⌊fs/f0 − d⌋ + 1`; all-pass coefficient `g = (1−e)/(1+e)` with
`e = (fs/f0 − d) − ⌊fs/f0 − d⌋`; loop gain
`c = clamp(10^(−3/(f0·decay)) / √((1−d)² + 2d(1−d)cos(2π f0/fs)), 0, 1)`. -/
theorem karplus_constants_correct (fs f0 d decay : ℝ) (noise : ℕ → ℝ)
    (hdelay : 0 ≤ fs / f0 - d) :
    ((KarplusStrong.new fs f0 d decay noise).delay_line_length : ℤ) =
      ⌊fs / f0 - d⌋ + 1 ∧
    (KarplusStrong.new fs f0 d decay noise).g =
      (1 - (fs / f0 - d - ⌊fs / f0 - d⌋)) /
        (1 + (fs / f0 - d - ⌊fs / f0 - d⌋)) ∧
    (KarplusStrong.new fs f0 d decay noise).c =
      clampR ((10 : ℝ) ^ (-3 / (f0 * decay)) /
        Real.sqrt ((1 - d) ^ 2
          + 2 * d * (1 - d) * Real.cos (2 * Real.pi * f0 / fs))) 0 1 := by
  have hfract : f64fract (fs / f0 - d) = fs / f0 - d - ⌊fs / f0 - d⌋ := by
    rw [f64fract, f64trunc, if_pos hdelay]
  refine ⟨?_, ?_, ?_⟩
  · show ((f64toUsize (fs / f0 - d) + 1 : ℕ) : ℤ) = ⌊fs / f0 - d⌋ + 1
    rw [f64toUsize]
    push_cast [Int.toNat_of_nonneg (Int.floor_nonneg.mpr hdelay)]
    ring
  · show (1 - f64fract (fs / f0 - d)) / (1 + f64fract (fs / f0 - d)) = _
    rw [hfract]
  · show clampR ((10 : ℝ) ^ (-3 / f0 / decay) /
        Real.sqrt ((1 - d) * (1 - d)
          + 2 * d * (1 - d) * Real.cos (2 * Real.pi * f0 / fs))) 0 1 = _
    rw [div_div (-3 : ℝ) f0 decay]
    congr 2
    ring

/-- C3 witness. -/
theorem karplus_constants_correct_witness :
    ((KarplusStrong.new 48000 220 (1/20) 2 (fun _ => 0)).delay_line_length : ℤ) =
      ⌊(48000 : ℝ) / 220 - 1/20⌋ + 1 :=
  (karplus_constants_correct 48000 220 (1/20) 2 (fun _ => 0) (by norm_num)).1

/-- C6: construction fails (the dasp `from_raw_parts` assertion fires,
modelled by `none`) exactly when the requested logical length
`⌊fs/f0 − d⌋ + 1` exceeds the fixed capacity 1024; when it succeeds the
delay line holds exactly that many slots — nothing is truncated. -/
theorem karplus_capacity_check (fs f0 d decay : ℝ) (noise : ℕ → ℝ) :
    ((KarplusStrong.new? fs f0 d decay noise).isSome ↔
      ⌊fs / f0 - d⌋ + 1 ≤ 1024) ∧
    (∀ ks, KarplusStrong.new? fs f0 d decay noise = some ks →
      ks.delay_line.length = f64toUsize (fs / f0 - d) + 1 ∧
      ks.delay_line_length = f64toUsize (fs / f0 - d) + 1) := by
  constructor
  · rw [KarplusStrong.new?, f64toUsize]
    split_ifs with h
    · simp only [Option.isSome_some, true_iff]
      have hle : ⌊fs / f0 - d⌋ ≤ ((1023 : ℕ) : ℤ) :=
        (@Int.toNat_le ⌊fs / f0 - d⌋ 1023).mp (by omega)
      omega
    · simp only [Option.isSome_none, Bool.false_eq_true, false_iff]
      intro hcon
      have hle : ⌊fs / f0 - d⌋.toNat ≤ 1023 :=
        (@Int.toNat_le ⌊fs / f0 - d⌋ 1023).mpr (by omega)
      omega
  · intro ks hks
    rw [KarplusStrong.new?] at hks
    split_ifs at hks with h
    · cases hks
      constructor
      · show (List.replicate (f64toUsize (fs / f0 - d) + 1) (0 : ℝ)).length = _
        rw [List.length_replicate]
      · rfl

/-- C6 witness. -/
theorem karplus_capacity_check_witness :
    (KarplusStrong.new? 48000 220 (1/20) 2 (fun _ => 0)).isSome = true ∧
    (KarplusStrong.new? 48000 1 0 1 (fun _ => 0)).isSome = false := by
  constructor
  · rw [(karplus_capacity_check 48000 220 (1/20) 2 (fun _ => 0)).1]
    have : ⌊(48000 : ℝ) / 220 - 1/20⌋ < 1024 := by
      rw [Int.floor_lt]
      norm_num
    omega
  · have h := (karplus_capacity_check 48000 1 0 1 (fun _ => 0)).1
    have hfl : (1024 : ℤ) ≤ ⌊(48000 : ℝ) / 1 - 0⌋ := by
      rw [Int.le_floor]
      norm_num
    rw [Bool.eq_false_iff]
    intro hcontra
    have := h.mp (by rw [hcontra])
    omega

/-- C10: the delay line of a Karplus-Strong string with
`1 ≤ delay_line_length ≤ 1024` invariantly holds exactly
`delay_line_length` samples: construction fills it with that many zeros,
and each `next` call pops exactly one sample (never hitting the empty-pop
fallback) and pushes exactly one back. -/
theorem karplus_delay_line_invariant (fs f0 d decay : ℝ) (noise : ℕ → ℝ)
    (s : KarplusStrong) (hlen : s.delay_line.length = s.delay_line_length)
    (h1 : 1 ≤ s.delay_line_length) (h2 : s.delay_line_length ≤ 1024) :
    (KarplusStrong.new fs f0 d decay noise).delay_line =
      List.replicate (KarplusStrong.new fs f0 d decay noise).delay_line_length 0 ∧
    s.delay_line ≠ [] ∧
    ((boundedPop s.delay_line).1).isSome = true ∧
    (s.next).2.delay_line.length = s.delay_line_length ∧
    (s.next).2.delay_line_length = s.delay_line_length := by
  have hne : s.delay_line ≠ [] := by
    intro hnil
    rw [hnil] at hlen
    simp at hlen
    omega
  refine ⟨rfl, hne, ?_, ?_, rfl⟩
  · rw [boundedPop]
    cases hdl : s.delay_line with
    | nil => exact absurd hdl hne
    | cons a l => rfl
  · show (boundedPush (boundedPop s.delay_line).2 _).length = _
    rw [boundedPop, boundedPush, if_pos]
    · rw [List.length_append, List.length_tail, hlen]
      simp
      omega
    · rw [List.length_tail, hlen]
      omega

/-- C10 witness. -/
theorem karplus_delay_line_invariant_witness :
    ((⟨0, fun _ => 0, 0, 1, 0, 0, 0, 1, [0], 0, 0⟩ : KarplusStrong).next).2.delay_line.length = 1 :=
  (karplus_delay_line_invariant 1 1 0 1 (fun _ => 0)
    ⟨0, fun _ => 0, 0, 1, 0, 0, 0, 1, [0], 0, 0⟩ (by simp) (by norm_num)
    (by norm_num)).2.2.2.1

/-- C7: in every `next` call (this is call number `cur_frame + 1`), the
noise contribution added to the output is a fresh noise sample exactly when
the call index lies in the first `delay_line_length` frames of its
`fs`-frame cycle (indices `n` with `k·fs ≤ n < k·fs + delay_line_length`
for some `k`), and exactly `0` otherwise; "fresh" meaning the noise cursor
advances by one exactly on those calls. -/
theorem karplus_noise_burst_window (s : KarplusStrong)
    (hfs : 1 ≤ f64toUsize s.fs)
    (hL : s.delay_line_length ≤ f64toUsize s.fs) :
    ((s.next).1 =
      (if (s.cur_frame + 1) % f64toUsize s.fs < s.delay_line_length
        then s.noise s.noise_idx else 0)
      + s.c * ((1 - s.d) * (-s.g * s.last_all_passed_feedback
          + s.g * (((boundedPop s.delay_line).1).getD 0)
          + s.last_delayed_sample)
        + s.d * s.last_all_passed_feedback)) ∧
    ((s.next).2.noise_idx =
      if (s.cur_frame + 1) % f64toUsize s.fs < s.delay_line_length
      then s.noise_idx + 1 else s.noise_idx) ∧
    ((s.cur_frame + 1) % f64toUsize s.fs < s.delay_line_length ↔
      ∃ k, k * f64toUsize s.fs ≤ s.cur_frame + 1 ∧
        s.cur_frame + 1 < k * f64toUsize s.fs + s.delay_line_length) := by
  refine ⟨rfl, rfl, ?_⟩
  constructor
  · intro h
    refine ⟨(s.cur_frame + 1) / f64toUsize s.fs, ?_, ?_⟩
    · rw [mul_comm]
      exact Nat.mul_div_le _ _
    · have hdm := Nat.div_add_mod (s.cur_frame + 1) (f64toUsize s.fs)
      rw [mul_comm]
      omega
  · rintro ⟨k, hk1, hk2⟩
    have hmod : (s.cur_frame + 1) % f64toUsize s.fs =
        s.cur_frame + 1 - k * f64toUsize s.fs := by
      have hform : s.cur_frame + 1 =
          (s.cur_frame + 1 - k * f64toUsize s.fs) + k * f64toUsize s.fs := by
        omega
      conv_lhs => rw [hform]
      rw [Nat.add_mul_mod_self_right, Nat.mod_eq_of_lt (by omega)]
    omega

/-- C7 witness. -/
theorem karplus_noise_burst_window_witness :
    ((⟨0, fun _ => 1, 0, 2, 0, 0, 0, 1, [0], 0, 0⟩ : KarplusStrong).next).2.noise_idx = 0 := by
  have h2 : f64toUsize (2 : ℝ) = 2 := by
    rw [f64toUsize]
    have hf : ⌊(2 : ℝ)⌋ = 2 := by norm_num
    rw [hf]
    rfl
  have hfs : 1 ≤ f64toUsize (2 : ℝ) := by rw [h2]; norm_num
  have hLle : (1 : ℕ) ≤ f64toUsize (2 : ℝ) := hfs
  have h := (karplus_noise_burst_window ⟨0, fun _ => 1, 0, 2, 0, 0, 0, 1, [0], 0, 0⟩
    hfs hLle).2.1
  rw [h, h2]
  rfl

/-! Section ch6-polyblep.rs: `PolyBlepSaw`.

The dasp phase accumulator supplies the freshly advanced phase; the
oscillator step is embedded as a function of that phase and the stored
previous phase, returning the output sample and the new previous phase.
Only field operations occur, so the embedding is exact over `ℚ`. -/

/-- Embeds `<PolyBlepSaw as Signal>::next` (ch6-polyblep.rs lines 97–119). -/
def polyBlepSawNext (phase prev_phase : ℚ) : ℚ × ℚ :=
  let out := phase * -2 + 1
  let delta :=
    if phase > prev_phase then phase - prev_phase
    else 1 + phase - prev_phase
  let out :=
    if phase < delta then
      let t := phase / delta
      out + (-t * t + 2 * t - 1)
    else if phase > 1 - delta then
      let t := (phase - 1) / delta
      out + (t * t + 2 * t + 1)
    else out
  (out, phase)

/-- C4: one PolyBLEP sawtooth step. With
`delta = phase − prev` when `phase > prev`, else `1 + phase − prev`, the
output is the naive value `phase·(−2) + 1` plus `−t² + 2t − 1` (with
`t = phase/delta`) when `phase < delta`, else `t² + 2t + 1` (with
`t = (phase−1)/delta`) when `phase > 1 − delta`, else `0`; the stored
previous phase becomes the current phase. -/
theorem polyblep_saw_correct (phase prev : ℚ)
    (h0 : 0 ≤ phase) (h1 : phase < 1) :
    polyBlepSawNext phase prev =
      (phase * (-2) + 1 +
        (if phase <
            (if phase > prev then phase - prev else 1 + phase - prev) then
          -(phase / (if phase > prev then phase - prev
              else 1 + phase - prev)) ^ 2
            + 2 * (phase / (if phase > prev then phase - prev
              else 1 + phase - prev)) - 1
        else if phase >
            1 - (if phase > prev then phase - prev else 1 + phase - prev) then
          ((phase - 1) / (if phase > prev then phase - prev
              else 1 + phase - prev)) ^ 2
            + 2 * ((phase - 1) / (if phase > prev then phase - prev
              else 1 + phase - prev)) + 1
        else 0),
       phase) := by
  rw [polyBlepSawNext]
  split_ifs <;> refine Prod.ext ?_ rfl <;> dsimp only <;> ring

/-- C4 witness. -/
theorem polyblep_saw_correct_witness :
    polyBlepSawNext (1/10) (1/2) = (19/180, 1/10) := by
  rw [polyblep_saw_correct (1/10) (1/2) (by norm_num) (by norm_num)]
  norm_num
